import Mathlib

/-!
Verification of the prestic scheduling and execution engine
(`src/prestic/prestic.py`) against its specification.

The embedding models:
* Python `datetime` values as proleptic-Gregorian calendar records at
  second granularity (the program never sets sub-second fields; every
  comparison it performs is decided before the microsecond field, so
  the microsecond field is dropped).  Years are unbounded naturals.
* `Profile.find_next_run` (the schedule calculator), including the
  exceptions Python can raise while processing time tokens
  (`int(...)` on a non-numeric string, `datetime.replace` on an
  out-of-range hour/minute): a raised exception is `Except.error ()`.
* the stale-lock retry logic of `ServiceHandler.run_task`,
* the `next_run` reseeding done by `BaseHandler.load_config`,
* the profile-inheritance fixed-point loop of `BaseHandler.load_config`,
  with explicit fuel so that non-termination is observable.
-/

set_option autoImplicit false

namespace Prestic

/-- A Python `datetime` value (proleptic Gregorian, second granularity). -/
structure Datetime where
  year : Nat
  month : Nat
  day : Nat
  hour : Nat
  minute : Nat
  second : Nat
deriving DecidableEq, Repr

/-- Gregorian leap-year rule, as used by Python's `datetime`. -/
def isLeap (y : Nat) : Prop := (y % 4 = 0 ∧ y % 100 ≠ 0) ∨ y % 400 = 0

instance : DecidablePred isLeap := fun y => by unfold isLeap; infer_instance

/-- Length of month `m` of year `y`. -/
def monthLen (y m : Nat) : Nat :=
  if m = 2 then (if isLeap y then 29 else 28)
  else if m = 4 ∨ m = 6 ∨ m = 9 ∨ m = 11 then 30
  else 31

/-- The datetime has in-range fields (what `datetime` enforces on construction). -/
def Datetime.Valid (t : Datetime) : Prop :=
  1 ≤ t.year ∧ 1 ≤ t.month ∧ t.month ≤ 12 ∧ 1 ≤ t.day ∧
    t.day ≤ monthLen t.year t.month ∧ t.hour ≤ 23 ∧ t.minute ≤ 59 ∧ t.second ≤ 59

instance : DecidablePred Datetime.Valid := fun t => by
  unfold Datetime.Valid; infer_instance

/-- Number of leap years strictly before year `y` (years `1, …, y-1`). -/
def leapsBefore (y : Nat) : Nat := ((y - 1) / 4 - (y - 1) / 100) + (y - 1) / 400

/-- Days in all years strictly before year `y`. -/
def daysBeforeYear (y : Nat) : Nat := 365 * (y - 1) + leapsBefore y

/-- Days in all months of year `y` strictly before month `m`. -/
def daysBeforeMonth (y m : Nat) : Nat :=
  (((List.range (m - 1)).map fun k => monthLen y (k + 1))).sum

/-- Rata-die style day number: day 0 is 0001-01-01 (a Monday). -/
def Datetime.rataDie (t : Datetime) : Nat :=
  daysBeforeYear t.year + daysBeforeMonth t.year t.month + (t.day - 1)

/-- Seconds since 0001-01-01 00:00:00; chronological comparisons go through this. -/
def Datetime.toSeconds (t : Datetime) : Nat :=
  t.rataDie * 86400 + t.hour * 3600 + t.minute * 60 + t.second

/-- Python's `datetime.weekday()`: Monday is 0. -/
def Datetime.weekday (t : Datetime) : Nat := t.rataDie % 7

instance : LE Datetime := ⟨fun a b => a.toSeconds ≤ b.toSeconds⟩
instance : LT Datetime := ⟨fun a b => a.toSeconds < b.toSeconds⟩

instance (a b : Datetime) : Decidable (a ≤ b) :=
  inferInstanceAs (Decidable (a.toSeconds ≤ b.toSeconds))
instance (a b : Datetime) : Decidable (a < b) :=
  inferInstanceAs (Decidable (a.toSeconds < b.toSeconds))

/-- Python `t + timedelta(days=1)` (time of day unchanged). -/
def Datetime.nextDay (t : Datetime) : Datetime :=
  if t.day < monthLen t.year t.month then { t with day := t.day + 1 }
  else if t.month < 12 then { t with month := t.month + 1, day := 1 }
  else { t with year := t.year + 1, month := 1, day := 1 }

/-- Python `t - timedelta(days=1)` (time of day unchanged). -/
def Datetime.prevDay (t : Datetime) : Datetime :=
  if 1 < t.day then { t with day := t.day - 1 }
  else if 1 < t.month then { t with month := t.month - 1, day := monthLen t.year (t.month - 1) }
  else { t with year := t.year - 1, month := 12, day := 31 }

/-- Python `t + timedelta(minutes=1)` (seconds unchanged). -/
def Datetime.addMinute (t : Datetime) : Datetime :=
  if t.minute + 1 ≤ 59 then { t with minute := t.minute + 1 }
  else if t.hour + 1 ≤ 23 then { t with hour := t.hour + 1, minute := 0 }
  else { t.nextDay with hour := 0, minute := 0 }

/-- Python `t + timedelta(hours=12)` (for a valid `t`). -/
def Datetime.addHours12 (t : Datetime) : Datetime :=
  if t.hour + 12 ≤ 23 then { t with hour := t.hour + 12 }
  else { t.nextDay with hour := t.hour + 12 - 24 }

/-- Python `t + timedelta(days=n)`. -/
def addDays : Nat → Datetime → Datetime
  | 0, t => t
  | n + 1, t => addDays n t.nextDay

/-- Python `t.replace(hour=0, minute=0, second=0)` (always in range, never raises). -/
def Datetime.replZero (t : Datetime) : Datetime :=
  { t with hour := 0, minute := 0, second := 0 }

/-- Python `t.replace(hour=h, minute=m)`: raises `ValueError` when out of range. -/
def Datetime.replaceHM (t : Datetime) (h m : Int) : Except Unit Datetime :=
  if 0 ≤ h ∧ h ≤ 23 ∧ 0 ≤ m ∧ m ≤ 59 then
    .ok { t with hour := h.toNat, minute := m.toNat }
  else .error ()

/-! ## Tokenisation of the schedule string -/

/-- ASCII `str.lower` (schedule tokens are ASCII). -/
def lowerChar (c : Char) : Char :=
  if 'A' ≤ c ∧ c ≤ 'Z' then Char.ofNat (c.toNat + 32) else c

/-- The whitespace characters `str.split()` splits on (the common ones). -/
def isWsChar (c : Char) : Bool := c = ' ' || c = '\t' || c = '\n' || c = '\r'

/-- Helper for `splitWs`; `acc` is the current token, reversed. -/
def splitWsAux : List Char → List Char → List (List Char)
  | [], acc => if acc = [] then [] else [acc.reverse]
  | c :: cs, acc =>
    if isWsChar c then
      if acc = [] then splitWsAux cs [] else acc.reverse :: splitWsAux cs []
    else splitWsAux cs (c :: acc)

/-- Python `str.split()`: split on whitespace runs, dropping empty tokens. -/
def splitWs (s : List Char) : List (List Char) := splitWsAux s []

/-- The tokenisation `self.schedule.lower().replace(",", " ").split()`. -/
def tokenize (s : String) : List (List Char) :=
  splitWs ((s.toList.map lowerChar).map fun c => if c = ',' then ' ' else c)

/-- Helper for `splitOnChar`; keeps empty parts like Python `str.split(sep)`. -/
def splitOnCharAux (sep : Char) : List Char → List Char → List (List Char)
  | [], acc => [acc.reverse]
  | c :: cs, acc =>
    if c = sep then acc.reverse :: splitOnCharAux sep cs []
    else splitOnCharAux sep cs (c :: acc)

/-- Python `str.split(sep)` for a one-character separator. -/
def splitOnChar (sep : Char) (s : List Char) : List (List Char) := splitOnCharAux sep s []

/-- Value of an ASCII digit. -/
def digitVal (c : Char) : Option Nat :=
  if '0' ≤ c ∧ c ≤ '9' then some (c.toNat - '0'.toNat) else none

/-- Helper for `digitsVal`. -/
def digitsValAux : List Char → Nat → Option Nat
  | [], acc => some acc
  | c :: cs, acc =>
    match digitVal c with
    | some d => digitsValAux cs (acc * 10 + d)
    | none => none

/-- Value of a non-empty all-digit string, else `none`. -/
def digitsVal : List Char → Option Nat
  | [] => none
  | cs => digitsValAux cs 0

/-- Python `int(s)` on a whitespace-free token: optional sign then digits
(`ValueError`, i.e. `none`, otherwise; Python's underscore digit grouping
and non-ASCII digits are not modelled — no claim depends on them). -/
def parseIntPy : List Char → Option Int
  | '+' :: cs => (digitsVal cs).map fun n => (n : Int)
  | '-' :: cs => (digitsVal cs).map fun n => -(n : Int)
  | cs => (digitsVal cs).map fun n => (n : Int)

/-- The `weekdays` list of `find_next_run`. -/
def weekdayNames : List (List Char) :=
  ["mon", "tue", "wed", "thu", "fri", "sat", "sun"].map String.toList

/-- Python `list.index` on the weekday list (only used after a membership test). -/
def idxOfCL (x : List Char) : List (List Char) → Nat
  | [] => 0
  | y :: ys => if x = y then 0 else idxOfCL x ys + 1

/-- State threaded through the token loop of `find_next_run`: the Python
sets `m_days` / `w_days` are modelled as lists (only membership and
emptiness are ever observed) together with the candidate `next_run`. -/
structure SchedState where
  mdays : List Nat
  wdays : List Nat
  nr : Datetime
deriving DecidableEq, Repr

/-- The initial day-of-month set `set(range(1, 32))`. -/
def mdaysInit : List Nat := (List.range 31).map (· + 1)

/-- The literal token `*` (pre-colon part of a `*:MM` time token). -/
def starTok : List Char := ['*']

/-- One iteration of the token loop of `find_next_run`.  `ft` is the
already-advanced `from_time` (used by the `*:MM` rule). -/
def procToken (ft : Datetime) (st : SchedState) (part : List Char) : Except Unit SchedState :=
  if part = "monthly".toList then .ok { st with mdays := [1] }
  else if part = "weekly".toList then .ok { st with wdays := [0] }
  else if part.take 3 ∈ weekdayNames then
    let w := idxOfCL (part.take 3) weekdayNames
    .ok { st with wdays := if w ∈ st.wdays then st.wdays else st.wdays ++ [w] }
  else
    match splitOnChar ':' part with
    | [hs, ms] =>
      match (if hs = starTok then some ((ft.hour : Int) + 1) else parseIntPy hs),
            parseIntPy ms with
      | some hv, some mv => (st.nr.replaceHM hv mv).map fun nr' => { st with nr := nr' }
      | _, _ => .error ()
    | _ => .ok st

/-- The token loop of `find_next_run` (an exception aborts it). -/
def foldTokens (ft : Datetime) : SchedState → List (List Char) → Except Unit SchedState
  | st, [] => .ok st
  | st, p :: ps =>
    match procToken ft st p with
    | .error e => .error e
    | .ok st' => foldTokens ft st' ps

/-- The day-acceptance test of the scan loop of `find_next_run`
(`i` is the loop counter, `nr` the candidate). -/
def dayTest (mdays wdays : List Nat) (ft : Datetime) (i : Nat) (nr : Datetime) : Prop :=
  nr.day ∈ mdays ∧ (i % 7 ∈ wdays ∨ wdays = []) ∧ ft ≤ nr

instance (mdays wdays : List Nat) (ft : Datetime) (i : Nat) (nr : Datetime) :
    Decidable (dayTest mdays wdays ft i nr) := by
  unfold dayTest; infer_instance

/-- The scan loop of `find_next_run`: `for i in range(w0, w0 + 32)`. -/
def scanDays (mdays wdays : List Nat) (ft : Datetime) : Nat → Nat → Datetime → Option Datetime
  | 0, _, _ => none
  | n + 1, i, nr =>
    if dayTest mdays wdays ft i nr then some nr
    else scanDays mdays wdays ft n (i + 1) nr.nextDay

/-- The schedule calculator `Profile.find_next_run` (given the profile's `schedule` property and an
explicit `from_time`).  `Except.error ()` models a raised exception. -/
def find_next_run (schedule : Option String) (from_time : Datetime) :
    Except Unit (Option Datetime) :=
  match schedule with
  | none => .ok none
  | some s =>
    if s = "" then .ok none
    else
      let ft := from_time.addMinute
      let st0 : SchedState := ⟨mdaysInit, [], ft.replZero⟩
      match foldTokens ft st0 (tokenize s) with
      | .error e => .error e
      | .ok st => .ok (scanDays st.mdays st.wdays ft 32 ft.weekday st.nr)

/-! ## `Profile.is_runnable` -/

/-- The slice of a resolved profile that `is_runnable` inspects. -/
structure ProfileT where
  command : List String
  repository : Option String
  repositoryFile : Option String

/-- Python truthiness of an optional string property (`None` and `""` are falsy). -/
def truthyStr : Option String → Bool
  | none => false
  | some s => !(s == "")

/-- The predicate `Profile.is_runnable`: `self.command and (self["repository"] or self["repository-file"])`. -/
def is_runnable (p : ProfileT) : Bool :=
  !p.command.isEmpty && (truthyStr p.repository || truthyStr p.repositoryFile)

/-! ## Stale-lock retry of `ServiceHandler.run_task` -/

/-- The stale-lock message `"remove stale locks"`. -/
def staleMsg : List Char := "remove stale locks".toList

/-- Whether `p` is a prefix of `s`. -/
def startsList : List Char → List Char → Bool
  | [], _ => true
  | _ :: _, [] => false
  | a :: as, b :: bs => a = b && startsList as bs

/-- Python's `p in s` substring test. -/
def hasSub (p : List Char) : List Char → Bool
  | [] => startsList p []
  | c :: cs => startsList p (c :: cs) || hasSub p cs

/-- Captured output lines and exit code of one `try_run` invocation. -/
structure ProcResult where
  output : List String
  exitCode : Int
deriving DecidableEq

/-- Observable outcome of the launch/retry part of `run_task`. -/
structure RunTaskOut where
  result : Except Unit ProcResult
  unlockRuns : Nat
  mainRuns : Nat

/-- The condition `ret == 1 and "remove stale locks" in output[-1]`; `output[-1]` on an
empty list raises `IndexError` (`and` short-circuits on `ret != 1`). -/
def staleCheck (r : ProcResult) : Except Unit Bool :=
  if r.exitCode = 1 then
    match r.output.getLast? with
    | none => .error ()
    | some l => .ok (hasSub staleMsg l.toList)
  else .ok false

/-- Lines 389-396 of `run_task`: first run yields `r1`; if the stale-lock
condition holds, `unlock` is run (yielding `u`) and, only when `unlock`
exits 0, the command is re-run once (yielding `r2`). -/
def run_task_retry (r1 u r2 : ProcResult) : RunTaskOut :=
  match staleCheck r1 with
  | .error _ => ⟨.error (), 0, 1⟩
  | .ok true => if u.exitCode = 0 then ⟨.ok r2, 1, 2⟩ else ⟨.ok r1, 1, 1⟩
  | .ok false => ⟨.ok r1, 0, 1⟩

/-! ## `next_run` reseeding in `BaseHandler.load_config` -/

/-- The per-task `try` block of `load_config` (lines 297-309) as a function
of the persisted `last_run`, the current time, and the `next_run` the task
had before the block ran (kept when an exception fires before `set_last_run`
finishes).  Returns the task's `(last_run, next_run)` after the block. -/
def seedNextRun (schedule : Option String) (priorNext : Option Datetime)
    (persisted now : Datetime) : Option Datetime × Option Datetime :=
  match find_next_run schedule persisted with
  | .error _ => (some persisted, priorNext)
  | .ok none => (some persisted, none)
  | .ok (some v) =>
    if now.prevDay < v then
      match find_next_run schedule now with
      | .error _ => (some persisted, some v)
      | .ok none => (some persisted, some v)
      | .ok (some u) =>
        if u < now.addHours12 then (some persisted, some u) else (some persisted, some v)
    else (some persisted, some v)

/-! ## Profile inheritance loop of `BaseHandler.load_config` -/

/-- A profile as the inheritance loop sees it: its name, its pending
`inherit` list, and its other explicitly-set properties (an insertion-ordered
association list, values kept raw). -/
structure PProfile where
  name : String
  inh : List String
  props : List (String × String)
deriving DecidableEq, Repr

/-- Membership test `Profile.is_defined` restricted to non-`inherit` keys. -/
def isDefinedOn (key : String) (p : PProfile) : Bool := p.props.any fun kv => kv.1 == key

/-- The method `Profile.inherit`: copy every parent property not already set on the child
(the child's non-empty `inherit` list is itself defined, so never copied). -/
def inheritFrom (child parent : PProfile) : PProfile :=
  { child with props := child.props ++ parent.props.filter fun kv => !isDefinedOn kv.1 child }

/-- The lookup `self.profiles.get(parent_name)`. -/
def findProfile (ps : List PProfile) (n : String) : Option PProfile :=
  ps.find? fun p => p.name == n

/-- One pass of the inheritance `for` loop starting at index `k`
(`n` is the number of indices left; profiles are processed in order and
mutations are visible to later iterations of the same pass).  The `Bool`
is the `inherits` flag; `Except.error` models `exit(...)`. -/
def onePassAux : Nat → List PProfile → Nat → Bool → Except String (List PProfile × Bool)
  | 0, ps, _, flag => .ok (ps, flag)
  | n + 1, ps, k, flag =>
    match ps[k]? with
    | none => .ok (ps, flag)
    | some p =>
      match p.inh with
      | [] => onePassAux n ps (k + 1) flag
      | parentName :: rest =>
        match findProfile ps parentName with
        | none => .error ("[error] profile " ++ p.name ++
            " inherits non-existing parent " ++ parentName)
        | some parent =>
          if parentName = p.name then
            .error ("[error] profile " ++ p.name ++ " cannot inherit from itself")
          else if parent.inh ≠ [] then onePassAux n ps (k + 1) true
          else onePassAux n (ps.set k { inheritFrom p parent with inh := rest }) (k + 1) true

/-- One full pass over all profiles. -/
def onePass (ps : List PProfile) : Except String (List PProfile × Bool) :=
  onePassAux ps.length ps 0 false

/-- The `while inherits:` loop, with fuel: `.ok none` means the fuel ran out
with the flag still set, i.e. the loop has not terminated after that many
passes. -/
def resolveInherits : Nat → List PProfile → Except String (Option (List PProfile))
  | 0, _ => .ok none
  | n + 1, ps =>
    match onePass ps with
    | .error e => .error e
    | .ok (ps', flag) => if flag then resolveInherits n ps' else .ok (some ps')

/-- A two-profile inheritance cycle (plus the implicit `default` profile),
the input on which the resolver loop never makes progress. -/
def cycleProfiles : List PProfile :=
  [⟨"default", [], []⟩, ⟨"a", ["b"], []⟩, ⟨"b", ["a"], []⟩]

/-! ## Spec-side definitions (used to state refinement / amended claims) -/

/-- Closed form for "the next occurrence of weekday `w` (Monday = 0) at
`hh:mm`, at or after `from_time + 1 minute`" — the value the spec's weekday
claim promises; its minimality among all such occurrences is proved below. -/
def nextWeekdayAt (w hh mm : Nat) (from_time : Datetime) : Datetime :=
  let a := from_time.addMinute
  let c : Datetime := { a with hour := hh, minute := mm, second := 0 }
  let k := (w + 7 - a.weekday) % 7
  if k = 0 ∧ a ≤ c then c else addDays (if k = 0 then 7 else k) c

/-- The spec's wording of the day-acceptance test: the day's day-of-month is
in the candidate set, the day-of-week set is empty or contains the day's
day-of-week, and the resulting timestamp is at or after the advanced time. -/
def dayTestWords (mdays wdays : List Nat) (adv d : Datetime) : Prop :=
  d.day ∈ mdays ∧ (wdays = [] ∨ d.weekday ∈ wdays) ∧ adv ≤ d

instance (mdays wdays : List Nat) (adv d : Datetime) :
    Decidable (dayTestWords mdays wdays adv d) := by
  unfold dayTestWords; infer_instance

/-- The schedule calculator as the spec words it (§4.2 steps 4-5): after
deriving the candidate sets and time-of-day, scan forward day-by-day from
the advanced day for up to 32 days and return the first acceptable day, or
none if no day within 32 days is acceptable (or the spec is empty/absent). -/
def specNextRunWords (schedule : Option String) (from_time : Datetime) :
    Except Unit (Option Datetime) :=
  match schedule with
  | none => .ok none
  | some s =>
    if s = "" then .ok none
    else
      let ft := from_time.addMinute
      let st0 : SchedState := ⟨mdaysInit, [], ft.replZero⟩
      match foldTokens ft st0 (tokenize s) with
      | .error e => .error e
      | .ok st =>
        .ok ((List.range 32).findSome? fun o =>
          let d := addDays o st.nr
          if dayTestWords st.mdays st.wdays ft d then some d else none)

/-- Whether a token is a `*:MM` time token (used to carve out the
non-idempotent `*:MM` schedules). -/
def tokHasStar (tok : List Char) : Bool :=
  match splitOnChar ':' tok with
  | [hs, _] => hs == starTok
  | _ => false

/-- Whether any token of the schedule is a `*:MM` time token. -/
def hasStarTime (toks : List (List Char)) : Bool := toks.any tokHasStar

/-!
# Theorems

First the claim theorems that are settled by direct computation or short
case analysis, then the calendar lemmas and the schedule-calculator proofs.
-/

/-- C1.  The claim says inheritance resolution always terminates and that a
cycle of length two is rejected with a "circular inheritance" error.  The
code does neither: on `a inherits b, b inherits a` every pass of the loop
leaves the profile set unchanged with the `inherits` flag still set, so for
every amount of fuel the `while inherits:` loop is still running (`.ok none`
= fuel exhausted) — the program loops forever instead of failing. -/
theorem claim_C1_cycle_never_terminates (n : Nat) :
    resolveInherits n cycleProfiles = .ok none := by
  induction n with
  | zero => rfl
  | succ n ih =>
    have h : onePass cycleProfiles = .ok (cycleProfiles, true) := rfl
    simp only [resolveInherits, h, if_true]
    exact ih

/-- C2.  Within one task execution, unlock runs exactly when the first run
exits with code 1 and its final captured output line contains the stale-lock
message; the command is re-launched (a second `mainRuns`) exactly when unlock
ran and exited 0; at most one unlock and at most one retry happen; and after
a retry the outcome is the second run's result unconditionally, so a second
stale-lock failure is treated as a normal failure. -/
theorem claim_C2_stale_lock_retry (r1 u r2 : ProcResult) :
    ((run_task_retry r1 u r2).unlockRuns = 1 ↔
      r1.exitCode = 1 ∧ ∃ l, r1.output.getLast? = some l ∧ hasSub staleMsg l.toList = true)
    ∧ (run_task_retry r1 u r2).unlockRuns ≤ 1
    ∧ (run_task_retry r1 u r2).mainRuns ≤ 2
    ∧ ((run_task_retry r1 u r2).mainRuns = 2 ↔
      (run_task_retry r1 u r2).unlockRuns = 1 ∧ u.exitCode = 0)
    ∧ ((run_task_retry r1 u r2).mainRuns = 2 → (run_task_retry r1 u r2).result = .ok r2) := by
  unfold run_task_retry staleCheck
  by_cases h1 : r1.exitCode = 1
  · rw [if_pos h1]
    cases hl : r1.output.getLast? with
    | none => simp [hl, h1]
    | some l =>
      cases hs : hasSub staleMsg l.data with
      | false => simp [hl, h1, hs, String.toList]
      | true =>
        by_cases hu : u.exitCode = 0
        · simp [hl, h1, hs, hu, String.toList]
        · simp [hl, h1, hs, hu, String.toList]
  · rw [if_neg h1]
    simp [h1]

/-- C10 counterexample.  The claim says that whenever the first run exits
with code 1 the stale-lock condition evaluates successfully even on an empty
output list; in fact `output[-1]` raises `IndexError` there, so the run is
aborted by an exception instead of being classified. -/
theorem claim_C10_cex :
    (run_task_retry ⟨[], 1⟩ ⟨[], 0⟩ ⟨[], 0⟩).result = .error () := rfl

/-- C10 amended.  The stale-lock check raises (and the run is left
unclassified) exactly when the first run exits with code 1 and produced no
output lines; for every other exit code the check short-circuits and the run
is classified normally even with empty output. -/
theorem claim_C10_amended (r1 u r2 : ProcResult) :
    (run_task_retry r1 u r2).result = .error () ↔ r1.exitCode = 1 ∧ r1.output = [] := by
  unfold run_task_retry staleCheck
  by_cases h1 : r1.exitCode = 1
  · rw [if_pos h1]
    cases hl : r1.output.getLast? with
    | none => simp_all [List.getLast?_eq_none_iff]
    | some l =>
      have : r1.output ≠ [] := by
        intro hnil; rw [hnil] at hl; exact Option.noConfusion hl
      cases hs : hasSub staleMsg l.toList with
      | false => simp_all
      | true => by_cases hu : u.exitCode = 0 <;> simp_all
  · rw [if_neg h1]
    simp [h1]

/-- C4 counterexample.  The claim says a profile with both repository
locators set is not runnable; in the code `is_runnable` uses a disjunction,
so a profile with a non-empty command and both locators set is runnable. -/
theorem claim_C4_cex :
    is_runnable ⟨["backup"], some "/repo", some "/repo.txt"⟩ = true := rfl

/-- C4 amended.  A resolved profile is promoted to a runnable task iff its
command list is non-empty and at least one of the two repository locators is
set to a non-empty string (both set is allowed). -/
theorem claim_C4_amended (p : ProfileT) :
    is_runnable p = true ↔
      p.command ≠ [] ∧
        ((∃ s, p.repository = some s ∧ s ≠ "") ∨
          (∃ s, p.repositoryFile = some s ∧ s ≠ "")) := by
  obtain ⟨c, r, f⟩ := p
  unfold is_runnable truthyStr
  cases r <;> cases f <;>
    simp [List.isEmpty_iff, and_comm]

/-- C5.  The claim (with the spec) says `next_run` succeeds for every
`*:MM` spec and every `from_time`, including when the advanced time's hour
is 23.  The code computes candidate hour `23 + 1 = 24` and
`datetime.replace(hour=24)` raises `ValueError`: at 23:05 with spec `*:30`
the computation fails instead of returning a value. -/
theorem claim_C5_star_hour23_raises :
    find_next_run (some "*:30") ⟨2021, 6, 10, 23, 5, 0⟩ = .error () := rfl

/-- C3 counterexample.  Claim: a task whose persisted `last_run` is within
the last 24 hours gets `next_run` recomputed from that `last_run`.  Here the
persisted `last_run` is 13.5 hours old (strictly after `now - 1 day`), the
from-`last_run` value is 2021-06-10 02:00, yet the seeding replaces it with
the value recomputed from `now`, 2021-06-11 02:00. -/
theorem claim_C3_cex :
    (⟨2021, 6, 10, 15, 0, 0⟩ : Datetime).prevDay < (⟨2021, 6, 10, 1, 30, 0⟩ : Datetime)
    ∧ find_next_run (some "02:00") ⟨2021, 6, 10, 1, 30, 0⟩ =
        .ok (some ⟨2021, 6, 10, 2, 0, 0⟩)
    ∧ seedNextRun (some "02:00") none ⟨2021, 6, 10, 1, 30, 0⟩ ⟨2021, 6, 10, 15, 0, 0⟩ =
        (some ⟨2021, 6, 10, 1, 30, 0⟩, some ⟨2021, 6, 11, 2, 0, 0⟩) :=
  ⟨by decide, rfl, rfl⟩

/-- C3 amended.  On load, `next_run` is first recomputed from the persisted
`last_run`; that value is then replaced by the value recomputed from `now`
exactly when it is later than `now - 1 day` and the now-based next run is
earlier than `now + 12 hours` (skipping a recently missed occurrence whose
next regular run is soon); otherwise the from-`last_run` value is kept, so a
long-missed occurrence leaves the task due immediately. -/
theorem claim_C3_amended (sched : Option String) (prior : Option Datetime)
    (p n v u : Datetime)
    (hp : find_next_run sched p = .ok (some v))
    (hn : find_next_run sched n = .ok (some u)) :
    seedNextRun sched prior p n =
      (some p, some (if n.prevDay < v ∧ u < n.addHours12 then u else v)) := by
  by_cases h1 : n.prevDay < v
  · by_cases h2 : u < n.addHours12
    · simp [seedNextRun, hp, hn, h1, h2]
    · simp [seedNextRun, hp, hn, h1, h2]
  · simp [seedNextRun, hp, hn, h1, fun hc : n.prevDay < v ∧ u < n.addHours12 => h1 hc.1]

/-- C3 witness: the amended statement applied at concrete inputs. -/
theorem claim_C3_witness :
    seedNextRun (some "02:00") none ⟨2021, 6, 10, 1, 30, 0⟩ ⟨2021, 6, 10, 15, 0, 0⟩ =
      (some ⟨2021, 6, 10, 1, 30, 0⟩,
        some (if (⟨2021, 6, 10, 15, 0, 0⟩ : Datetime).prevDay < (⟨2021, 6, 10, 2, 0, 0⟩ : Datetime)
                ∧ (⟨2021, 6, 11, 2, 0, 0⟩ : Datetime) <
                    (⟨2021, 6, 10, 15, 0, 0⟩ : Datetime).addHours12
              then (⟨2021, 6, 11, 2, 0, 0⟩ : Datetime) else ⟨2021, 6, 10, 2, 0, 0⟩)) :=
  claim_C3_amended (some "02:00") none _ _ _ _ rfl rfl

/-- C6 counterexample.  The claim says the returned timestamp is strictly
after `from_time + 1 minute`; with spec `mon 14:30` and `from_time` Monday
2021-06-07 14:29:00 the result equals `from_time + 1 minute` exactly. -/
theorem claim_C6_cex :
    find_next_run (some "mon 14:30") ⟨2021, 6, 7, 14, 29, 0⟩ =
      .ok (some ⟨2021, 6, 7, 14, 30, 0⟩)
    ∧ (⟨2021, 6, 7, 14, 29, 0⟩ : Datetime).addMinute = ⟨2021, 6, 7, 14, 30, 0⟩
    ∧ ¬((⟨2021, 6, 7, 14, 29, 0⟩ : Datetime).addMinute < (⟨2021, 6, 7, 14, 30, 0⟩ : Datetime)) :=
  ⟨rfl, rfl, by decide⟩

/-- C7 counterexample.  The claim says that for a non-empty spec the
computation returns none or the first acceptable timestamp; with the
malformed time token `10:99` (`datetime.replace(minute=99)` raises
`ValueError`) it instead fails with an exception. -/
theorem claim_C7_cex :
    find_next_run (some "10:99") ⟨2021, 6, 6, 10, 0, 0⟩ = .error () := rfl

/-- C8 counterexample.  The claim says a malformed single-colon token such
as `foo:bar` is ignored; in the code it is parsed as a time token and
`int("foo")` raises `ValueError`, so the whole computation fails. -/
theorem claim_C8_cex :
    find_next_run (some "foo:bar") ⟨2021, 6, 10, 10, 0, 0⟩ = .error () := rfl

/-- C8 amended.  A token that is not `monthly`, not `weekly`, whose first
three characters are not a weekday name, and that does not contain exactly
one colon is ignored: processing it leaves the scheduling state unchanged
and raises nothing.  (A malformed token with exactly one colon is instead
parsed as a time token and can fail, as the counterexample shows.) -/
theorem claim_C8_amended (ft : Datetime) (st : SchedState) (tok : List Char)
    (h1 : tok ≠ "monthly".toList) (h2 : tok ≠ "weekly".toList)
    (h3 : tok.take 3 ∉ weekdayNames) (h4 : (splitOnChar ':' tok).length ≠ 2) :
    procToken ft st tok = .ok st := by
  unfold procToken
  rw [if_neg h1, if_neg h2, if_neg h3]
  cases h : splitOnChar ':' tok with
  | nil => rfl
  | cons a l =>
    cases l with
    | nil => rfl
    | cons b l2 =>
      cases l2 with
      | nil => exact absurd (by rw [h]; rfl) h4
      | cons c l3 => rfl

/-- C8 witness: the unrecognised token `banana` is ignored. -/
theorem claim_C8_witness :
    procToken ⟨2021, 6, 10, 10, 1, 0⟩ ⟨mdaysInit, [], ⟨2021, 6, 10, 0, 0, 0⟩⟩ "banana".toList =
      .ok ⟨mdaysInit, [], ⟨2021, 6, 10, 0, 0, 0⟩⟩ :=
  claim_C8_amended _ _ _ (by decide) (by decide) (by decide) (by decide)

/-! ## Calendar lemmas -/

theorem monthLen_pos (y m : Nat) : 1 ≤ monthLen y m := by
  unfold monthLen
  split
  · split <;> omega
  · split <;> omega

theorem monthLen_le31 (y m : Nat) : monthLen y m ≤ 31 := by
  unfold monthLen
  split
  · split <;> omega
  · split <;> omega

theorem leapsBefore_succ (y : Nat) (h : 1 ≤ y) :
    leapsBefore (y + 1) = leapsBefore y + (if isLeap y then 1 else 0) := by
  obtain ⟨n, rfl⟩ : ∃ n, y = n + 1 := ⟨y - 1, by omega⟩
  have hiff : isLeap (n + 1) ↔ (((4:Nat) ∣ n + 1 ∧ ¬(100:Nat) ∣ n + 1) ∨ (400:Nat) ∣ n + 1) := by
    unfold isLeap
    omega
  unfold leapsBefore
  simp only [Nat.add_sub_cancel, Nat.succ_div, hiff]
  split_ifs <;> omega

theorem daysBeforeYear_succ (y : Nat) (h : 1 ≤ y) :
    daysBeforeYear (y + 1) = daysBeforeYear y + 365 + (if isLeap y then 1 else 0) := by
  unfold daysBeforeYear
  rw [leapsBefore_succ y h]
  simp only [Nat.add_sub_cancel]
  by_cases hl : isLeap y
  · rw [if_pos hl]
    omega
  · rw [if_neg hl]
    omega

theorem daysBeforeMonth_succ (y m : Nat) (h : 1 ≤ m) :
    daysBeforeMonth y (m + 1) = daysBeforeMonth y m + monthLen y m := by
  obtain ⟨k, rfl⟩ : ∃ k, m = k + 1 := ⟨m - 1, by omega⟩
  unfold daysBeforeMonth
  simp only [Nat.add_sub_cancel]
  rw [List.range_succ, List.map_append, List.sum_append]
  simp

theorem daysBeforeMonth_13 (y : Nat) :
    daysBeforeMonth y 13 = 365 + (if isLeap y then 1 else 0) := by
  have hr : List.range 12 = [0, 1, 2, 3, 4, 5, 6, 7, 8, 9, 10, 11] := rfl
  unfold daysBeforeMonth
  rw [show (13 : Nat) - 1 = 12 from rfl, hr]
  by_cases hl : isLeap y <;> norm_num [monthLen, hl]

theorem rataDie_nextDay (t : Datetime) (h : t.Valid) :
    t.nextDay.rataDie = t.rataDie + 1 := by
  obtain ⟨yr, mo, da, hh, mi, ss⟩ := t
  obtain ⟨h1, h2, h3, h4, h5, h6, h7, h8⟩ := h
  dsimp only at *
  unfold Datetime.nextDay
  dsimp only
  split_ifs with hd hm
  · unfold Datetime.rataDie
    dsimp only
    omega
  · have hs := daysBeforeMonth_succ yr mo h2
    unfold Datetime.rataDie
    dsimp only
    omega
  · have hmo : mo = 12 := by omega
    subst hmo
    have hml : monthLen yr 12 = 31 := rfl
    have hda : da = 31 := by omega
    subst hda
    have hs := daysBeforeMonth_succ yr 12 (by omega)
    norm_num at hs
    have h13 := daysBeforeMonth_13 yr
    have hy := daysBeforeYear_succ yr h1
    unfold Datetime.rataDie
    dsimp only
    have hb1 : daysBeforeMonth (yr + 1) 1 = 0 := rfl
    by_cases hl : isLeap yr
    · rw [if_pos hl] at hy h13
      omega
    · rw [if_neg hl] at hy h13
      omega

theorem nextDay_valid (t : Datetime) (h : t.Valid) : t.nextDay.Valid := by
  obtain ⟨yr, mo, da, hh, mi, ss⟩ := t
  obtain ⟨h1, h2, h3, h4, h5, h6, h7, h8⟩ := h
  dsimp only at *
  unfold Datetime.nextDay
  dsimp only
  split_ifs with hd hm <;> unfold Datetime.Valid <;> dsimp only <;>
    refine ⟨?_, ?_, ?_, ?_, ?_, ?_, ?_, ?_⟩ <;> first | omega | exact monthLen_pos _ _

theorem nextDay_tod (t : Datetime) :
    t.nextDay.hour = t.hour ∧ t.nextDay.minute = t.minute ∧ t.nextDay.second = t.second := by
  unfold Datetime.nextDay
  split_ifs <;> exact ⟨rfl, rfl, rfl⟩

theorem addDays_valid (n : Nat) (t : Datetime) (h : t.Valid) : (addDays n t).Valid := by
  induction n generalizing t with
  | zero => exact h
  | succ n ih => exact ih _ (nextDay_valid t h)

theorem addDays_rataDie (n : Nat) (t : Datetime) (h : t.Valid) :
    (addDays n t).rataDie = t.rataDie + n := by
  induction n generalizing t with
  | zero => rfl
  | succ n ih =>
    show (addDays n t.nextDay).rataDie = _
    rw [ih _ (nextDay_valid t h), rataDie_nextDay t h]
    omega

theorem addDays_tod (n : Nat) (t : Datetime) :
    (addDays n t).hour = t.hour ∧ (addDays n t).minute = t.minute ∧
      (addDays n t).second = t.second := by
  induction n generalizing t with
  | zero => exact ⟨rfl, rfl, rfl⟩
  | succ n ih =>
    obtain ⟨e1, e2, e3⟩ := ih t.nextDay
    obtain ⟨f1, f2, f3⟩ := nextDay_tod t
    exact ⟨by rw [show addDays (n+1) t = addDays n t.nextDay from rfl, e1, f1],
      by rw [show addDays (n+1) t = addDays n t.nextDay from rfl, e2, f2],
      by rw [show addDays (n+1) t = addDays n t.nextDay from rfl, e3, f3]⟩

theorem addMinute_valid (t : Datetime) (h : t.Valid) : t.addMinute.Valid := by
  have hnd := nextDay_valid t h
  obtain ⟨n1, n2, n3, n4, n5, n6, n7, n8⟩ := hnd
  obtain ⟨h1, h2, h3, h4, h5, h6, h7, h8⟩ := h
  unfold Datetime.addMinute
  split_ifs with ha hb <;> unfold Datetime.Valid <;> dsimp only <;>
    refine ⟨?_, ?_, ?_, ?_, ?_, ?_, ?_, ?_⟩ <;> omega

theorem replZero_valid (t : Datetime) (h : t.Valid) : t.replZero.Valid := by
  obtain ⟨h1, h2, h3, h4, h5, h6, h7, h8⟩ := h
  unfold Datetime.replZero Datetime.Valid
  dsimp only
  exact ⟨h1, h2, h3, h4, h5, by omega, by omega, by omega⟩

theorem rataDie_congr (a b : Datetime) (h1 : a.year = b.year) (h2 : a.month = b.month)
    (h3 : a.day = b.day) : a.rataDie = b.rataDie := by
  unfold Datetime.rataDie
  rw [h1, h2, h3]

theorem tod_le_86399 (t : Datetime) (h : t.Valid) :
    t.hour * 3600 + t.minute * 60 + t.second ≤ 86399 := by
  obtain ⟨_, _, _, _, _, h6, h7, h8⟩ := h
  omega

theorem mem_mdaysInit (d : Nat) : d ∈ mdaysInit ↔ 1 ≤ d ∧ d ≤ 31 := by
  unfold mdaysInit
  simp only [List.mem_map, List.mem_range]
  constructor
  · rintro ⟨k, hk, rfl⟩
    omega
  · rintro ⟨hd1, hd2⟩
    exact ⟨d - 1, by omega, by omega⟩

/-! ## Scan-loop lemmas -/

theorem scanDays_eq_some (mdays wdays : List Nat) (ft : Datetime) (n : Nat) :
    ∀ (o i : Nat) (nr : Datetime), o < n →
      dayTest mdays wdays ft (i + o) (addDays o nr) →
      (∀ o' < o, ¬ dayTest mdays wdays ft (i + o') (addDays o' nr)) →
      scanDays mdays wdays ft n i nr = some (addDays o nr) := by
  induction n with
  | zero =>
    intro o i nr ho _ _
    omega
  | succ n ih =>
    intro o i nr ho hT hmin
    cases o with
    | zero =>
      unfold scanDays
      rw [if_pos (by simpa [addDays] using hT)]
      rfl
    | succ o =>
      unfold scanDays
      rw [if_neg (by simpa [addDays] using hmin 0 (Nat.succ_pos o))]
      have hT' : dayTest mdays wdays ft ((i + 1) + o) (addDays o nr.nextDay) := by
        have he : i + (o + 1) = (i + 1) + o := by omega
        rw [he] at hT
        exact hT
      exact ih o (i + 1) nr.nextDay (by omega) hT' fun o' ho' => by
        have hm := hmin (o' + 1) (by omega)
        have he : i + (o' + 1) = (i + 1) + o' := by omega
        rw [he] at hm
        exact hm

theorem scanDays_some_inv (mdays wdays : List Nat) (ft : Datetime) (n : Nat) :
    ∀ (i : Nat) (nr t : Datetime), scanDays mdays wdays ft n i nr = some t →
      ∃ o, o < n ∧ t = addDays o nr ∧ dayTest mdays wdays ft (i + o) t := by
  induction n with
  | zero =>
    intro i nr t h
    exact absurd h (by unfold scanDays; simp)
  | succ n ih =>
    intro i nr t h
    unfold scanDays at h
    by_cases hc : dayTest mdays wdays ft i nr
    · rw [if_pos hc] at h
      obtain rfl : nr = t := Option.some.inj h
      exact ⟨0, by omega, rfl, by simpa using hc⟩
    · rw [if_neg hc] at h
      obtain ⟨o, ho, ht, hT⟩ := ih (i + 1) nr.nextDay t h
      refine ⟨o + 1, by omega, ht, ?_⟩
      have he : i + (o + 1) = (i + 1) + o := by omega
      rw [he]
      exact hT

theorem scanDays_eq_findSome (mdays wdays : List Nat) (ft : Datetime) (n : Nat) :
    ∀ (i : Nat) (c : Datetime), c.Valid → i % 7 = c.rataDie % 7 →
      scanDays mdays wdays ft n i c =
        (List.range n).findSome? (fun o =>
          if dayTestWords mdays wdays ft (addDays o c) then some (addDays o c) else none) := by
  induction n with
  | zero =>
    intro i c _ _
    rfl
  | succ n ih =>
    intro i c hv hmod
    have hcond : dayTestWords mdays wdays ft (addDays 0 c) ↔ dayTest mdays wdays ft i c := by
      unfold dayTestWords dayTest Datetime.weekday
      simp only [addDays]
      constructor
      · rintro ⟨a, b, d⟩
        refine ⟨a, ?_, d⟩
        rcases b with b | b
        · exact Or.inr b
        · exact Or.inl (by rw [hmod]; exact b)
      · rintro ⟨a, b, d⟩
        refine ⟨a, ?_, d⟩
        rcases b with b | b
        · exact Or.inr (by rw [← hmod]; exact b)
        · exact Or.inl b
    simp only [List.range_succ_eq_map, List.findSome?_cons]
    unfold scanDays
    by_cases h0 : dayTest mdays wdays ft i c
    · rw [if_pos h0, if_pos (hcond.mpr h0)]
      rfl
    · rw [if_neg h0, if_neg (fun hw => h0 (hcond.mp hw))]
      rw [List.findSome?_map]
      have heq : ((fun o =>
            if dayTestWords mdays wdays ft (addDays o c) then some (addDays o c) else none) ∘
              Nat.succ) =
          fun o => if dayTestWords mdays wdays ft (addDays o c.nextDay) then
            some (addDays o c.nextDay) else none := by
        funext o
        show (if dayTestWords mdays wdays ft (addDays (o + 1) c) then
            some (addDays (o + 1) c) else none) = _
        rfl
      rw [heq]
      exact ih (i + 1) c.nextDay (nextDay_valid c hv)
        (by rw [rataDie_nextDay c hv]; omega)

/-! ## Token-processing lemmas -/

theorem replaceHM_ok (t : Datetime) (h m : Int) (t' : Datetime)
    (heq : t.replaceHM h m = .ok t') :
    t'.year = t.year ∧ t'.month = t.month ∧ t'.day = t.day ∧
      t'.hour = h.toNat ∧ t'.minute = m.toNat ∧ t'.second = t.second ∧
      0 ≤ h ∧ h ≤ 23 ∧ 0 ≤ m ∧ m ≤ 59 := by
  unfold Datetime.replaceHM at heq
  split_ifs at heq with hc
  · obtain rfl : ({ t with hour := h.toNat, minute := m.toNat } : Datetime) = t' :=
      Except.ok.inj heq
    exact ⟨rfl, rfl, rfl, rfl, rfl, rfl, hc.1, hc.2.1, hc.2.2.1, hc.2.2.2⟩

theorem procToken_weekday (ft : Datetime) (st : SchedState) (tok : List Char)
    (h1 : tok ≠ "monthly".toList) (h2 : tok ≠ "weekly".toList)
    (h3 : tok.take 3 ∈ weekdayNames) :
    procToken ft st tok =
      .ok { st with wdays :=
        (if (idxOfCL (tok.take 3) weekdayNames) ∈ st.wdays then st.wdays
        else st.wdays ++ [idxOfCL (tok.take 3) weekdayNames]) } := by
  unfold procToken
  rw [if_neg h1, if_neg h2, if_pos h3]

theorem procToken_time (ft : Datetime) (st : SchedState) (tok hs ms : List Char) (hv mv : Int)
    (h1 : tok ≠ "monthly".toList) (h2 : tok ≠ "weekly".toList)
    (h3 : tok.take 3 ∉ weekdayNames) (hsp : splitOnChar ':' tok = [hs, ms])
    (hhs : hs ≠ starTok) (hph : parseIntPy hs = some hv) (hpm : parseIntPy ms = some mv) :
    procToken ft st tok = (st.nr.replaceHM hv mv).map fun nr' => { st with nr := nr' } := by
  unfold procToken
  rw [if_neg h1, if_neg h2, if_neg h3]
  simp only [hsp]
  rw [if_neg hhs]
  simp only [hph, hpm]

theorem procToken_ok_inv (ft : Datetime) (st st' : SchedState) (tok : List Char)
    (h : procToken ft st tok = .ok st') :
    st'.nr.year = st.nr.year ∧ st'.nr.month = st.nr.month ∧ st'.nr.day = st.nr.day ∧
      (st.nr.Valid → st'.nr.Valid) := by
  unfold procToken at h
  split_ifs at h with h1 h2 h3
  · cases h
    exact ⟨rfl, rfl, rfl, id⟩
  · cases h
    exact ⟨rfl, rfl, rfl, id⟩
  · cases h
    exact ⟨rfl, rfl, rfl, id⟩
  · rcases hsp : splitOnChar ':' tok with _ | ⟨hs, _ | ⟨ms, _ | ⟨x, l⟩⟩⟩ <;>
      simp only [hsp] at h
    · cases h
      exact ⟨rfl, rfl, rfl, id⟩
    · cases h
      exact ⟨rfl, rfl, rfl, id⟩
    · rcases hhv : (if hs = starTok then some ((ft.hour : Int) + 1) else parseIntPy hs)
          with _ | hv
      all_goals rcases hmv : parseIntPy ms with _ | mv
      all_goals simp only [hhv, hmv] at h
      all_goals try exact Except.noConfusion h
      rcases hrep : st.nr.replaceHM hv mv with _ | nr' <;> rw [hrep] at h
      · exact Except.noConfusion h
      · obtain rfl : ({ st with nr := nr' } : SchedState) = st' := Except.ok.inj h
        obtain ⟨e1, e2, e3, e4, e5, e6, b1, b2, b3, b4⟩ :=
          replaceHM_ok st.nr hv mv nr' hrep
        refine ⟨e1, e2, e3, fun hval => ?_⟩
        obtain ⟨v1, v2, v3, v4, v5, v6, v7, v8⟩ := hval
        refine ⟨?_, ?_, ?_, ?_, ?_, ?_, ?_, ?_⟩
        · rw [e1]; exact v1
        · rw [e2]; exact v2
        · rw [e2]; exact v3
        · rw [e3]; exact v4
        · rw [e3, e1, e2]; exact v5
        · rw [e4]; omega
        · rw [e5]; omega
        · rw [e6]; exact v8
    · cases h
      exact ⟨rfl, rfl, rfl, id⟩

theorem foldTokens_ok_inv (ft : Datetime) (toks : List (List Char)) :
    ∀ (st st' : SchedState), foldTokens ft st toks = .ok st' →
      st'.nr.year = st.nr.year ∧ st'.nr.month = st.nr.month ∧ st'.nr.day = st.nr.day ∧
        (st.nr.Valid → st'.nr.Valid) := by
  induction toks with
  | nil =>
    intro st st' h
    obtain rfl : st = st' := Except.ok.inj h
    exact ⟨rfl, rfl, rfl, id⟩
  | cons p ps ih =>
    intro st st' h
    unfold foldTokens at h
    rcases hp : procToken ft st p with _ | st1 <;> rw [hp] at h
    · exact Except.noConfusion h
    · obtain ⟨e1, e2, e3, e4⟩ := procToken_ok_inv ft st st1 p hp
      obtain ⟨f1, f2, f3, f4⟩ := ih st1 st' h
      exact ⟨by rw [f1, e1], by rw [f2, e2], by rw [f3, e3], fun hv => f4 (e4 hv)⟩

/-- C7 amended.  Provided token processing raises no exception (malformed or
out-of-range time tokens make the computation fail instead — see the
counterexample), the code computes exactly what the spec's words describe:
none for an empty/absent spec, otherwise the first day within 32 days of the
advanced day whose day-of-month is in the candidate set, whose day-of-week is
in the (possibly empty) set, and whose timestamp is at or after the advanced
`from_time`; none if no such day exists.  Stated as a full behavioural
equality with the spec-worded algorithm (errors included). -/
theorem claim_C7_amended (sched : Option String) (ft : Datetime) (h : ft.Valid) :
    find_next_run sched ft = specNextRunWords sched ft := by
  cases sched with
  | none => rfl
  | some s =>
    by_cases hs : s = ""
    · simp only [find_next_run, specNextRunWords, if_pos hs]
    · simp only [find_next_run, specNextRunWords, if_neg hs]
      rcases hft : foldTokens ft.addMinute ⟨mdaysInit, [], ft.addMinute.replZero⟩ (tokenize s)
          with e | st <;> simp only [hft]
      have hvadv : ft.addMinute.Valid := addMinute_valid ft h
      have hv0 : ft.addMinute.replZero.Valid := replZero_valid _ hvadv
      obtain ⟨e1, e2, e3, e4⟩ := foldTokens_ok_inv ft.addMinute (tokenize s) _ st hft
      have hvnr : st.nr.Valid := e4 hv0
      have hrd : st.nr.rataDie = ft.addMinute.rataDie := by
        apply rataDie_congr
        · rw [e1]; rfl
        · rw [e2]; rfl
        · rw [e3]; rfl
      exact congrArg Except.ok
        (scanDays_eq_findSome st.mdays st.wdays ft.addMinute 32 ft.addMinute.weekday st.nr hvnr
          (by unfold Datetime.weekday; rw [hrd]; omega))

/-- C7 witness: the amended statement at the spec's own example (`monthly
09:00` from the 15th; both sides evaluate to the 1st of the next month). -/
theorem claim_C7_witness :
    find_next_run (some "monthly 09:00") ⟨2021, 6, 15, 10, 0, 0⟩ =
      specNextRunWords (some "monthly 09:00") ⟨2021, 6, 15, 10, 0, 0⟩ :=
  claim_C7_amended (some "monthly 09:00") ⟨2021, 6, 15, 10, 0, 0⟩ (by decide)

theorem idxOfCL_lt_length (x : List Char) (l : List (List Char)) (h : x ∈ l) :
    idxOfCL x l < l.length := by
  induction l with
  | nil => cases h
  | cons y ys ih =>
    unfold idxOfCL
    by_cases he : x = y
    · rw [if_pos he]
      simp
    · rw [if_neg he]
      have hx : x ∈ ys := by
        rcases List.mem_cons.mp h with h' | h'
        · exact absurd h' he
        · exact h'
      have hlen : (y :: ys).length = ys.length + 1 := rfl
      have := ih hx
      omega

/-- Core analysis of the scan loop for a single weekday `w` and candidate
time `hh:mm`: the scan returns the closed-form "next weekday occurrence"
value, and that value is minimal among all valid datetimes with weekday `w`,
time `hh:mm:00`, at or after `A`. -/
theorem weekdayScan_core (A c : Datetime) (w hh mm : Nat)
    (hvA : A.Valid) (hvc : c.Valid)
    (hcy : c.year = A.year) (hcm : c.month = A.month) (hcd : c.day = A.day)
    (hch : c.hour = hh) (hcmi : c.minute = mm) (hcs : c.second = 0) (hw7 : w < 7) :
    ∃ t : Datetime,
      scanDays mdaysInit [w] A 32 A.weekday c = some t ∧
      t = (if (w + 7 - A.weekday) % 7 = 0 ∧ A ≤ c then c
           else addDays (if (w + 7 - A.weekday) % 7 = 0 then 7
             else (w + 7 - A.weekday) % 7) c) ∧
      t.Valid ∧ t.weekday = w ∧ t.hour = hh ∧ t.minute = mm ∧ t.second = 0 ∧ A ≤ t ∧
      ∀ u : Datetime, u.Valid → u.weekday = w → u.hour = hh → u.minute = mm →
        u.second = 0 → A ≤ u → t ≤ u := by
  have hwkA : A.weekday = A.rataDie % 7 := rfl
  have hcR : c.rataDie = A.rataDie := rataDie_congr c A hcy hcm hcd
  have hAs : A.toSeconds = A.rataDie * 86400 + A.hour * 3600 + A.minute * 60 + A.second := rfl
  have htodA := tod_le_86399 A hvA
  have hhh : hh ≤ 23 := by
    have := hvc.2.2.2.2.2.1
    rwa [hch] at this
  have hmm59 : mm ≤ 59 := by
    have := hvc.2.2.2.2.2.2.1
    rwa [hcmi] at this
  have hcs' : c.toSeconds = A.rataDie * 86400 + hh * 3600 + mm * 60 := by
    have hx : c.toSeconds = c.rataDie * 86400 + c.hour * 3600 + c.minute * 60 + c.second := rfl
    rw [hx, hch, hcmi, hcs, hcR]
    omega
  have htos : ∀ o : Nat,
      (addDays o c).toSeconds = (A.rataDie + o) * 86400 + (hh * 3600 + mm * 60) := by
    intro o
    obtain ⟨d1, d2, d3⟩ := addDays_tod o c
    have hx : (addDays o c).toSeconds =
        (addDays o c).rataDie * 86400 + (addDays o c).hour * 3600 +
          (addDays o c).minute * 60 + (addDays o c).second := rfl
    rw [hx, addDays_rataDie o c hvc, d1, d2, d3, hch, hcmi, hcs, hcR]
    omega
  have hday : ∀ o : Nat, (addDays o c).day ∈ mdaysInit := by
    intro o
    have hv := addDays_valid o c hvc
    exact (mem_mdaysInit _).mpr ⟨hv.2.2.2.1, le_trans hv.2.2.2.2.1 (monthLen_le31 _ _)⟩
  have hge1 : ∀ o : Nat, 1 ≤ o → A ≤ addDays o c := by
    intro o ho
    show A.toSeconds ≤ (addDays o c).toSeconds
    rw [htos o, hAs]
    omega
  have hwd : ∀ t : Datetime, t.weekday = t.rataDie % 7 := fun _ => rfl
  by_cases hk : (w + 7 - A.weekday) % 7 = 0
  · by_cases hac : A ≤ c
    · refine ⟨c, ?_, ?_, hvc, ?_, hch, hcmi, hcs, hac, ?_⟩
      · have h0 := scanDays_eq_some mdaysInit [w] A 32 0 A.weekday c (by omega)
          ⟨hday 0, Or.inl (by rw [List.mem_singleton]; omega),
            by simpa [addDays] using hac⟩
          (fun o' ho' => absurd ho' (by omega))
        simpa [addDays] using h0
      · rw [if_pos ⟨hk, hac⟩]
      · rw [hwd c, hcR]
        omega
      · intro u hvu huw huh hum hus hgeu
        show c.toSeconds ≤ u.toSeconds
        have hus' : u.toSeconds = u.rataDie * 86400 + hh * 3600 + mm * 60 := by
          have hx : u.toSeconds = u.rataDie * 86400 + u.hour * 3600 + u.minute * 60 + u.second := rfl
          rw [hx, huh, hum, hus]
          omega
        have hgeu' : A.toSeconds ≤ u.toSeconds := hgeu
        have hur : u.rataDie % 7 = w := by
          rw [← hwd u]
          exact huw
        rw [hcs', hus']
        rw [hAs, hus'] at hgeu'
        omega
    · refine ⟨addDays 7 c, ?_, ?_, addDays_valid 7 c hvc, ?_,
        (addDays_tod 7 c).1.trans hch, (addDays_tod 7 c).2.1.trans hcmi,
        (addDays_tod 7 c).2.2.trans hcs, hge1 7 (by omega), ?_⟩
      · exact scanDays_eq_some mdaysInit [w] A 32 7 A.weekday c (by omega)
          ⟨hday 7, Or.inl (by rw [List.mem_singleton]; omega), hge1 7 (by omega)⟩
          (fun o' ho' hcontra => by
            obtain ⟨_, hdow, hge'⟩ := hcontra
            rcases hdow with hdow | hdow
            · rw [List.mem_singleton] at hdow
              have ho0 : o' = 0 := by omega
              subst ho0
              exact hac (by simpa [addDays] using hge')
            · exact List.noConfusion hdow)
      · rw [if_neg (fun hcon => hac hcon.2), if_pos hk]
      · rw [hwd, addDays_rataDie 7 c hvc, hcR]
        omega
      · intro u hvu huw huh hum hus hgeu
        show (addDays 7 c).toSeconds ≤ u.toSeconds
        have hus' : u.toSeconds = u.rataDie * 86400 + hh * 3600 + mm * 60 := by
          have hx : u.toSeconds = u.rataDie * 86400 + u.hour * 3600 + u.minute * 60 + u.second := rfl
          rw [hx, huh, hum, hus]
          omega
        have hgeu' : A.toSeconds ≤ u.toSeconds := hgeu
        have hur : u.rataDie % 7 = w := by
          rw [← hwd u]
          exact huw
        have hne : u.rataDie ≠ A.rataDie := by
          intro he
          apply hac
          show A.toSeconds ≤ c.toSeconds
          rw [hAs, hcs']
          rw [hAs, hus', he] at hgeu'
          omega
        rw [htos 7, hus']
        rw [hAs, hus'] at hgeu'
        omega
  · refine ⟨addDays ((w + 7 - A.weekday) % 7) c, ?_, ?_,
      addDays_valid _ c hvc, ?_,
      (addDays_tod _ c).1.trans hch, (addDays_tod _ c).2.1.trans hcmi,
      (addDays_tod _ c).2.2.trans hcs, hge1 _ (by omega), ?_⟩
    · exact scanDays_eq_some mdaysInit [w] A 32 ((w + 7 - A.weekday) % 7) A.weekday c
        (by omega)
        ⟨hday _, Or.inl (by rw [List.mem_singleton]; omega), hge1 _ (by omega)⟩
        (fun o' ho' hcontra => by
          obtain ⟨_, hdow, hge'⟩ := hcontra
          rcases hdow with hdow | hdow
          · rw [List.mem_singleton] at hdow
            omega
          · exact List.noConfusion hdow)
    · rw [if_neg (fun hcon => hk hcon.1), if_neg hk]
    · rw [hwd, addDays_rataDie _ c hvc, hcR]
      omega
    · intro u hvu huw huh hum hus hgeu
      show (addDays ((w + 7 - A.weekday) % 7) c).toSeconds ≤ u.toSeconds
      have hus' : u.toSeconds = u.rataDie * 86400 + hh * 3600 + mm * 60 := by
        have hx : u.toSeconds = u.rataDie * 86400 + u.hour * 3600 + u.minute * 60 + u.second := rfl
        rw [hx, huh, hum, hus]
        omega
      have hgeu' : A.toSeconds ≤ u.toSeconds := hgeu
      have hur : u.rataDie % 7 = w := by
        rw [← hwd u]
        exact huw
      rw [htos _, hus']
      rw [hAs, hus'] at hgeu'
      omega

/-- C6 amended.  For a schedule consisting of one weekday token and one
fixed `HH:MM` time token (in either order), `next_run` returns exactly the
next occurrence of that weekday at that time **at or after**
`from_time + 1 minute` (the original claim's "strictly after" fails: the
result can equal `from_time + 1 minute`, see the counterexample).  The
result is the closed-form `nextWeekdayAt` value, it is a valid datetime
with the requested weekday and time, and it is minimal among all valid
datetimes with that weekday and time at or after the advanced time. -/
theorem claim_C6_amended
    (s : String) (wtok ttok hs ms : List Char) (w hh mm : Nat) (ft : Datetime)
    (hft : ft.Valid)
    (htoks : tokenize s = [wtok, ttok] ∨ tokenize s = [ttok, wtok])
    (hw1 : wtok ≠ "monthly".toList) (hw2 : wtok ≠ "weekly".toList)
    (hw3 : wtok.take 3 ∈ weekdayNames)
    (hw4 : idxOfCL (wtok.take 3) weekdayNames = w)
    (ht1 : ttok ≠ "monthly".toList) (ht2 : ttok ≠ "weekly".toList)
    (ht3 : ttok.take 3 ∉ weekdayNames)
    (ht4 : splitOnChar ':' ttok = [hs, ms])
    (ht5 : hs ≠ starTok)
    (ht6 : parseIntPy hs = some (hh : Int)) (ht7 : hh ≤ 23)
    (ht8 : parseIntPy ms = some (mm : Int)) (ht9 : mm ≤ 59) :
    find_next_run (some s) ft = .ok (some (nextWeekdayAt w hh mm ft))
    ∧ (nextWeekdayAt w hh mm ft).Valid
    ∧ (nextWeekdayAt w hh mm ft).weekday = w
    ∧ (nextWeekdayAt w hh mm ft).hour = hh
    ∧ (nextWeekdayAt w hh mm ft).minute = mm
    ∧ (nextWeekdayAt w hh mm ft).second = 0
    ∧ ft.addMinute ≤ nextWeekdayAt w hh mm ft
    ∧ ∀ u : Datetime, u.Valid → u.weekday = w → u.hour = hh → u.minute = mm →
        u.second = 0 → ft.addMinute ≤ u → nextWeekdayAt w hh mm ft ≤ u := by
  have hvA : ft.addMinute.Valid := addMinute_valid ft hft
  obtain ⟨a1, a2, a3, a4, a5, a6, a7, a8⟩ := hvA
  have hvA' : ft.addMinute.Valid := ⟨a1, a2, a3, a4, a5, a6, a7, a8⟩
  have hvc : ({ ft.addMinute with hour := hh, minute := mm, second := 0 } : Datetime).Valid := by
    unfold Datetime.Valid
    dsimp only
    exact ⟨a1, a2, a3, a4, a5, ht7, ht9, by omega⟩
  have hw7 : w < 7 := by
    have hl := idxOfCL_lt_length (wtok.take 3) weekdayNames hw3
    rw [hw4] at hl
    have hlen : weekdayNames.length = 7 := rfl
    omega
  have hsne : s ≠ "" := by
    intro he
    rcases htoks with h | h
    · rw [he] at h
      exact List.noConfusion (show ([] : List (List Char)) = wtok :: [ttok] from h)
    · rw [he] at h
      exact List.noConfusion (show ([] : List (List Char)) = ttok :: [wtok] from h)
  have hrep : ft.addMinute.replZero.replaceHM (hh : Int) (mm : Int) =
      .ok { ft.addMinute with hour := hh, minute := mm, second := 0 } := by
    unfold Datetime.replaceHM
    rw [if_pos (by refine ⟨?_, ?_, ?_, ?_⟩ <;> omega)]
    have h1 : ((hh : Int)).toNat = hh := Int.toNat_natCast hh
    have h2 : ((mm : Int)).toNat = mm := Int.toNat_natCast mm
    rw [h1, h2]
    rfl
  have hstep1 : ∀ nr : Datetime,
      procToken ft.addMinute ⟨mdaysInit, [], nr⟩ wtok = .ok ⟨mdaysInit, [w], nr⟩ := by
    intro nr
    rw [procToken_weekday ft.addMinute ⟨mdaysInit, [], nr⟩ wtok hw1 hw2 hw3]
    simp [hw4]
  have hstep2 : ∀ (md wd : List Nat),
      procToken ft.addMinute ⟨md, wd, ft.addMinute.replZero⟩ ttok =
        .ok ⟨md, wd, { ft.addMinute with hour := hh, minute := mm, second := 0 }⟩ := by
    intro md wd
    rw [procToken_time ft.addMinute ⟨md, wd, ft.addMinute.replZero⟩ ttok hs ms _ _
      ht1 ht2 ht3 ht4 ht5 ht6 ht8]
    dsimp only
    rw [hrep]
    rfl
  have hfold : foldTokens ft.addMinute ⟨mdaysInit, [], ft.addMinute.replZero⟩ (tokenize s) =
      .ok ⟨mdaysInit, [w], { ft.addMinute with hour := hh, minute := mm, second := 0 }⟩ := by
    rcases htoks with h | h <;> rw [h] <;> simp only [foldTokens, hstep1, hstep2]
  have hmain : find_next_run (some s) ft =
      .ok (scanDays mdaysInit [w] ft.addMinute 32 ft.addMinute.weekday
        { ft.addMinute with hour := hh, minute := mm, second := 0 }) := by
    simp only [find_next_run, if_neg hsne, hfold]
  obtain ⟨t, hscan, hteq, htv, htw, hth, htm, hts, htge, htmin⟩ :=
    weekdayScan_core ft.addMinute { ft.addMinute with hour := hh, minute := mm, second := 0 }
      w hh mm hvA' hvc rfl rfl rfl rfl rfl rfl hw7
  have hnw : nextWeekdayAt w hh mm ft = t := by
    rw [hteq]
    rfl
  rw [hnw]
  exact ⟨by rw [hmain, hscan], htv, htw, hth, htm, hts, htge, htmin⟩

/-- C6 witness: schedule `wed 14:30` from Sunday 2021-06-06 10:00 — the
next run is Wednesday 2021-06-09 14:30 (`w` = 2, the spec-side closed form
evaluates to that datetime). -/
theorem claim_C6_witness :
    find_next_run (some "wed 14:30") ⟨2021, 6, 6, 10, 0, 0⟩ =
      .ok (some (nextWeekdayAt 2 14 30 ⟨2021, 6, 6, 10, 0, 0⟩))
    ∧ nextWeekdayAt 2 14 30 ⟨2021, 6, 6, 10, 0, 0⟩ = ⟨2021, 6, 9, 14, 30, 0⟩ :=
  ⟨(claim_C6_amended "wed 14:30" "wed".toList "14:30".toList "14".toList "30".toList
      2 14 30 ⟨2021, 6, 6, 10, 0, 0⟩ (by decide) (Or.inl (by decide)) (by decide) (by decide)
      (by decide) (by decide) (by decide) (by decide) (by decide) (by decide) (by decide)
      (by decide) (by decide) (by decide) (by decide)).1,
    by decide⟩

theorem dt_ext (a b : Datetime) (h1 : a.year = b.year) (h2 : a.month = b.month)
    (h3 : a.day = b.day) (h4 : a.hour = b.hour) (h5 : a.minute = b.minute)
    (h6 : a.second = b.second) : a = b := by
  cases a
  cases b
  simp only [Datetime.mk.injEq]
  exact ⟨h1, h2, h3, h4, h5, h6⟩

/-- Token processing relates two runs from different reference times the same
way as long as the token is not a `*:MM` time token: the resulting
day-of-month set, day-of-week set, and candidate time-of-day do not depend on
the reference time. -/
theorem procToken_noStar_rel (ftA ftB : Datetime) (stA stB : SchedState) (tok : List Char)
    (hstar : tokHasStar tok = false)
    (hm : stA.mdays = stB.mdays) (hw : stA.wdays = stB.wdays)
    (hho : stA.nr.hour = stB.nr.hour) (hmi : stA.nr.minute = stB.nr.minute)
    (hse : stA.nr.second = stB.nr.second) :
    (procToken ftA stA tok = .error () ∧ procToken ftB stB tok = .error ()) ∨
    (∃ uA uB, procToken ftA stA tok = .ok uA ∧ procToken ftB stB tok = .ok uB ∧
      uA.mdays = uB.mdays ∧ uA.wdays = uB.wdays ∧
      uA.nr.hour = uB.nr.hour ∧ uA.nr.minute = uB.nr.minute ∧
      uA.nr.second = uB.nr.second) := by
  unfold procToken
  split_ifs with h1 h2 h3
  · right
    exact ⟨_, _, rfl, rfl, rfl, hw, hho, hmi, hse⟩
  · right
    exact ⟨_, _, rfl, rfl, hm, rfl, hho, hmi, hse⟩
  · right
    refine ⟨_, _, rfl, rfl, hm, by rw [hw], hho, hmi, hse⟩
  · rcases hsp : splitOnChar ':' tok with _ | ⟨hs, _ | ⟨ms, _ | ⟨x, l⟩⟩⟩ <;> simp only [hsp]
    · right
      exact ⟨_, _, rfl, rfl, hm, hw, hho, hmi, hse⟩
    · right
      exact ⟨_, _, rfl, rfl, hm, hw, hho, hmi, hse⟩
    · have hnstar : hs ≠ starTok := by
        unfold tokHasStar at hstar
        rw [hsp] at hstar
        intro he
        rw [he] at hstar
        simp at hstar
      rw [if_neg hnstar, if_neg hnstar]
      rcases hph : parseIntPy hs with _ | hv <;> rcases hpm : parseIntPy ms with _ | mv <;>
        dsimp only
      · left
        exact ⟨rfl, rfl⟩
      · left
        exact ⟨rfl, rfl⟩
      · left
        exact ⟨rfl, rfl⟩
      · unfold Datetime.replaceHM
        by_cases hok : 0 ≤ hv ∧ hv ≤ 23 ∧ 0 ≤ mv ∧ mv ≤ 59
        · rw [if_pos hok, if_pos hok]
          right
          exact ⟨_, _, rfl, rfl, hm, hw, rfl, rfl, hse⟩
        · rw [if_neg hok, if_neg hok]
          left
          exact ⟨rfl, rfl⟩
    · right
      exact ⟨_, _, rfl, rfl, hm, hw, hho, hmi, hse⟩

theorem foldTokens_noStar_rel (ftA ftB : Datetime) (toks : List (List Char)) :
    ∀ (stA stB : SchedState), (∀ tok ∈ toks, tokHasStar tok = false) →
      stA.mdays = stB.mdays → stA.wdays = stB.wdays →
      stA.nr.hour = stB.nr.hour → stA.nr.minute = stB.nr.minute →
      stA.nr.second = stB.nr.second →
      (foldTokens ftA stA toks = .error () ∧ foldTokens ftB stB toks = .error ()) ∨
      (∃ uA uB, foldTokens ftA stA toks = .ok uA ∧ foldTokens ftB stB toks = .ok uB ∧
        uA.mdays = uB.mdays ∧ uA.wdays = uB.wdays ∧
        uA.nr.hour = uB.nr.hour ∧ uA.nr.minute = uB.nr.minute ∧
        uA.nr.second = uB.nr.second) := by
  induction toks with
  | nil =>
    intro stA stB _ hm hw hho hmi hse
    right
    exact ⟨stA, stB, rfl, rfl, hm, hw, hho, hmi, hse⟩
  | cons p ps ih =>
    intro stA stB hstar hm hw hho hmi hse
    rcases procToken_noStar_rel ftA ftB stA stB p (hstar p (by simp)) hm hw hho hmi hse with
      ⟨hA, hB⟩ | ⟨uA, uB, hA, hB, um, uw, uh, umi, use⟩
    · left
      simp [foldTokens, hA, hB]
    · simp only [foldTokens, hA, hB]
      exact ih uA uB (fun tok ht => hstar tok (List.mem_cons_of_mem _ ht)) um uw uh umi use

/-- C9 counterexample.  The claim says re-application at `T - ε` for every
small `ε > 0` returns `T` again; with spec `14:30`, `T` = 2021-06-07 14:30
and `ε` = 30 seconds, the advanced time is 14:30:30 > `T`, so the code
returns the next day's occurrence instead of `T`. -/
theorem claim_C9_cex :
    find_next_run (some "14:30") ⟨2021, 6, 7, 10, 0, 0⟩ =
      .ok (some ⟨2021, 6, 7, 14, 30, 0⟩)
    ∧ find_next_run (some "14:30") ⟨2021, 6, 7, 14, 29, 30⟩ =
      .ok (some ⟨2021, 6, 8, 14, 30, 0⟩) :=
  ⟨rfl, rfl⟩

/-- C9 amended.  For schedules with no `*:MM` time token, re-application is
idempotent at `ε` = exactly one minute: if `next_run(spec, t) = T` then
`next_run(spec, T - 1min) = T` (`T - 1min` is stated as any valid `t'` with
`t' + 1min = T`).  For `0 < ε < 1min` the advanced time already passes `T`
and re-application overshoots (see the counterexample), and `*:MM` schedules
re-derive the candidate hour from the new reference time, so neither is
idempotent as originally claimed. -/
theorem claim_C9_amended (s : String) (ft T : Datetime)
    (hft : ft.Valid)
    (hnostar : hasStarTime (tokenize s) = false)
    (hrun : find_next_run (some s) ft = .ok (some T)) :
    ∀ t' : Datetime, t'.Valid → t'.addMinute = T →
      find_next_run (some s) t' = .ok (some T) := by
  have hsne : s ≠ "" := by
    intro he
    rw [he] at hrun
    simp [find_next_run] at hrun
  have hstar' : ∀ tok ∈ tokenize s, tokHasStar tok = false := by
    unfold hasStarTime at hnostar
    intro tok ht
    have hx := List.any_eq_false.mp hnostar tok ht
    simpa using hx
  simp only [find_next_run, if_neg hsne] at hrun
  rcases hfold : foldTokens ft.addMinute ⟨mdaysInit, [], ft.addMinute.replZero⟩ (tokenize s)
      with e | st
  · simp only [hfold] at hrun
    exact Except.noConfusion hrun
  · simp only [hfold] at hrun
    have hscan : scanDays st.mdays st.wdays ft.addMinute 32 ft.addMinute.weekday st.nr =
        some T := Except.ok.inj hrun
    obtain ⟨o, ho, hTeq, hT⟩ := scanDays_some_inv st.mdays st.wdays ft.addMinute 32
      ft.addMinute.weekday st.nr T hscan
    obtain ⟨hT1, hT2, hT3⟩ := hT
    have hvA : ft.addMinute.Valid := addMinute_valid ft hft
    obtain ⟨ey, em, ed, ev⟩ := foldTokens_ok_inv ft.addMinute (tokenize s) _ st hfold
    have hvnr : st.nr.Valid := ev (replZero_valid _ hvA)
    have hrd : st.nr.rataDie = ft.addMinute.rataDie :=
      rataDie_congr _ _ (by rw [ey]; rfl) (by rw [em]; rfl) (by rw [ed]; rfl)
    obtain ⟨th, tm2, ts2⟩ := addDays_tod o st.nr
    have hTr : T.rataDie = st.nr.rataDie + o := by
      rw [hTeq]
      exact addDays_rataDie o st.nr hvnr
    have hTh : T.hour = st.nr.hour := by
      rw [hTeq]
      exact th
    have hTm : T.minute = st.nr.minute := by
      rw [hTeq]
      exact tm2
    have hTs : T.second = st.nr.second := by
      rw [hTeq]
      exact ts2
    intro t' hvt' heq
    rcases foldTokens_noStar_rel t'.addMinute ft.addMinute (tokenize s)
        ⟨mdaysInit, [], t'.addMinute.replZero⟩ ⟨mdaysInit, [], ft.addMinute.replZero⟩
        hstar' rfl rfl rfl rfl rfl with
      ⟨hB, hA⟩ | ⟨u1, u2, hB, hA, um, uw, uh, umi, us⟩
    · rw [hfold] at hA
      exact Except.noConfusion hA
    · obtain rfl : st = u2 := Except.ok.inj (hfold.symm.trans hA)
      obtain ⟨fy, fm, fd, fv⟩ := foldTokens_ok_inv t'.addMinute (tokenize s) _ u1 hB
      have hBnr : u1.nr = T := by
        apply dt_ext
        · rw [fy]
          show t'.addMinute.year = T.year
          rw [heq]
        · rw [fm]
          show t'.addMinute.month = T.month
          rw [heq]
        · rw [fd]
          show t'.addMinute.day = T.day
          rw [heq]
        · rw [uh, ← hTh]
        · rw [umi, ← hTm]
        · rw [us, ← hTs]
      have hmods : (T.weekday + 0) % 7 = (ft.addMinute.weekday + o) % 7 := by
        have hw1 : T.weekday = T.rataDie % 7 := rfl
        have hw2 : ft.addMinute.weekday = ft.addMinute.rataDie % 7 := rfl
        rw [hw1, hw2, hTr, hrd]
        omega
      have hscanB : scanDays st.mdays st.wdays T 32 T.weekday T = some T := by
        have h0 := scanDays_eq_some st.mdays st.wdays T 32 0 T.weekday T (by omega)
          ⟨by simpa [addDays] using hT1, ?_, by
            simpa [addDays] using (show T ≤ T from Nat.le.refl)⟩
          (fun o' ho' => absurd ho' (by omega))
        · simpa [addDays] using h0
        · rcases hT2 with hmem | hnil
          · exact Or.inl (by rw [hmods]; exact hmem)
          · exact Or.inr hnil
      rw [heq] at hB
      simp only [find_next_run, if_neg hsne, heq, hB]
      rw [um, uw, hBnr, hscanB]

/-- C9 witness: schedule `09:00`, `T` = 2021-03-03 09:00 (obtained from
`from_time` 08:00); re-running from `T - 1min` = 08:59 returns `T` again. -/
theorem claim_C9_witness :
    find_next_run (some "09:00") ⟨2021, 3, 3, 8, 59, 0⟩ =
      .ok (some ⟨2021, 3, 3, 9, 0, 0⟩) :=
  claim_C9_amended "09:00" ⟨2021, 3, 3, 8, 0, 0⟩ ⟨2021, 3, 3, 9, 0, 0⟩
    (by decide) (by decide) rfl ⟨2021, 3, 3, 8, 59, 0⟩ (by decide) (by decide)

end Prestic
